import Mathlib

/-!
Verification of the RAG pipeline of `src/services/ragService.ts` (LocalChat).

JavaScript strings are modelled as `List Char` (`JSString`); JS string
primitives (`trim`, `split`, `toLowerCase`, `slice`, concatenation) are
given explicit executable models below, matching ECMAScript behaviour on
the inputs the service handles.  JS numbers that hold integer counts and
lengths are modelled as `ℕ`/`ℤ`; embedding-vector components and
similarity scores are modelled as `ℚ` (exact arithmetic; IEEE-754 rounding
is immaterial to every claim checked here) with `Math.sqrt` kept as an
abstract parameter, and a separate NaN-aware model is used where the
claim is about NaN itself.  Asynchronous external effects (the Ollama
embedding endpoint, pdf.js/tesseract extraction, the localforage store)
are modelled as explicit inputs: a fetched embedding becomes an
`Option (List ℚ)` argument (`none` = the request threw), and the store
becomes the list of documents it holds.
-/

/-- A JavaScript string, as its list of characters.  (JS `.length` counts
UTF-16 code units; the two differ only on astral-plane characters, on
which no verified claim depends.) -/
abbrev JSString := List Char

/-- Model of JS `String.prototype.trim`: remove whitespace from both ends. -/
def jsTrim (s : JSString) : JSString :=
  ((s.dropWhile Char.isWhitespace).reverse.dropWhile Char.isWhitespace).reverse

/-- Model of JS `String.prototype.split` at every character satisfying `p`
(single-character separators; `"".split` gives `[""]`, adjacent separators
give empty pieces, as in ECMAScript). -/
def splitOnP (p : Char → Bool) : JSString → List JSString
  | [] => [[]]
  | c :: rest =>
    if p c then [] :: splitOnP p rest
    else
      match splitOnP p rest with
      | [] => [[c]]
      | w :: ws => (c :: w) :: ws

/-- JS `str.split(sep)` for a single-character separator `sep`. -/
def jsSplit (sep : Char) (s : JSString) : List JSString :=
  splitOnP (fun c => c = sep) s

/-- The sentence-delimiter class `[.!?]` of `chunkText`. -/
def isPunctChar (c : Char) : Bool := c = '.' || c = '!' || c = '?'

/-- JS `Array.prototype.join(' ')`. -/
def joinSpace : List JSString → JSString
  | [] => []
  | [w] => w
  | w :: ws => w ++ ' ' :: joinSpace ws

/-- JS `Array.prototype.slice(-m)` (last `m` elements), including the JS
quirk that `slice(-0)` is `slice(0)`, i.e. the whole array. -/
def lastWords (m : ℕ) (ws : List JSString) : List JSString :=
  if m = 0 then ws else ws.drop (ws.length - m)

/-- Model of JS `String.prototype.toLowerCase` (ASCII case mapping; the
service only compares ASCII file names, MIME types and query words). -/
def jsToLower (s : JSString) : JSString := s.map Char.toLower

/-!  ## chunkText (ragService.ts, lines 247–273)  -/

/-- One iteration of the sentence loop of `chunkText`: either flush the
accumulated chunk (keeping the last `⌊overlap/5⌋` space-separated words as
overlap) or append the sentence to it with a `'. '` separator. -/
def chunkStep (chunkSize overlap : ℕ) (st : List JSString × JSString)
    (sentence : JSString) : List JSString × JSString :=
  let chunks := st.1
  let currentChunk := st.2
  let t := jsTrim sentence
  if chunkSize < (currentChunk ++ t).length ∧ 0 < currentChunk.length then
    let words := jsSplit ' ' currentChunk
    let overlapWords := lastWords (overlap / 5) words
    (chunks ++ [jsTrim currentChunk], joinSpace overlapWords ++ ' ' :: t)
  else
    (chunks, if currentChunk = [] then t else currentChunk ++ '.' :: ' ' :: t)

/-- The sentence list of `chunkText`:
`text.split(/[.!?]+/).filter(s => s.trim().length > 0)`.  (Splitting at
every single delimiter character and then dropping blank pieces yields
exactly the same list as splitting at maximal delimiter runs.) -/
def sentencesOf (text : JSString) : List JSString :=
  (splitOnP isPunctChar text).filter (fun s => 0 < (jsTrim s).length)

/-- `chunkText(text, chunkSize, overlap)` (ragService.ts 247–273). -/
def chunkText (text : JSString) (chunkSize : ℕ := 500) (overlap : ℕ := 50) :
    List JSString :=
  let st := (sentencesOf text).foldl (chunkStep chunkSize overlap) ([], [])
  if 0 < (jsTrim st.2).length then st.1 ++ [jsTrim st.2] else st.1

example :
    chunkText ("One sentence here. And two".data) 12 10 =
      [("One sentence here".data), ("sentence here And two".data)] := by decide

example :
    chunkText ("ab. cd".data) 500 50 = [("ab. cd".data)] := by decide

/-!  ## Data model (ragService.ts, lines 13–32)  -/

/-- The metadata object carried by a chunk.  The source declares optional
`page`/`section` fields and then stores `chunkIndex`, `similarity` and
`documentName` through `as any`; all five are modelled as optional fields.
(`sectionName` models the source field `section`, a Lean keyword.) -/
structure ChunkMetadata where
  page : Option ℕ := none
  sectionName : Option JSString := none
  chunkIndex : Option ℕ := none
  similarity : Option ℚ := none
  documentName : Option JSString := none
deriving DecidableEq

/-- `DocumentChunk` (ragService.ts 23–32); `embedding?: number[]` becomes
`Option (List ℚ)`. -/
structure DocumentChunk where
  id : JSString
  documentId : JSString
  content : JSString
  embedding : Option (List ℚ) := none
  metadata : ChunkMetadata
deriving DecidableEq

/-- `Document` (ragService.ts 13–21). -/
structure Document where
  id : JSString
  name : JSString
  type : JSString
  size : ℕ
  uploadedAt : JSString
  content : JSString
  chunks : List DocumentChunk
deriving DecidableEq

/-!  ## cosineSimilarity (ragService.ts, lines 397–408)

Two models are given.  `cosineSimilarity` is the exact-rational model used
by the search pipeline, with `Math.sqrt` as an abstract parameter `sqrt`.
`cosineSimilarityJS` additionally models the IEEE special values that the
final division can produce (`0/0 = NaN`, `x/0 = ±Infinity`), which is what
claim C9 is about.  Both mirror the source's guard and its single loop
over the indices of `a` (array reads modelled with default `0`, which the
guard makes unreachable out of bounds). -/

/-- The loop of `cosineSimilarity`: accumulates `(dotProduct, normA, normB)`
over `i = 0 .. a.length - 1`, reading `a[i]` and `b[i]`. -/
def cosineLoop (a b : List ℚ) : ℚ × ℚ × ℚ :=
  (List.range a.length).foldl
    (fun acc i =>
      (acc.1 + a.getD i 0 * b.getD i 0,
       acc.2.1 + a.getD i 0 * a.getD i 0,
       acc.2.2 + b.getD i 0 * b.getD i 0))
    (0, 0, 0)

/-- Exact-rational model of `cosineSimilarity` (Lean's `/` returns `0` on a
zero denominator; the NaN-precise variant is `cosineSimilarityJS`). -/
def cosineSimilarity (sqrt : ℚ → ℚ) (a b : List ℚ) : ℚ :=
  if a.length ≠ b.length then 0
  else
    let acc := cosineLoop a b
    acc.1 / (sqrt acc.2.1 * sqrt acc.2.2)

/-- Result of a JS floating-point division of finite operands. -/
inductive JSNum where
  | nan
  | posInf
  | negInf
  | fin (q : ℚ)
deriving DecidableEq

/-- JS division of finite numbers: `0/0 = NaN`, `x/0 = ±Infinity`. -/
def jsDiv (a b : ℚ) : JSNum :=
  if b = 0 then
    if a = 0 then JSNum.nan else if 0 < a then JSNum.posInf else JSNum.negInf
  else JSNum.fin (a / b)

/-- NaN-aware model of `cosineSimilarity`, for the claim about the value of
the final division. -/
def cosineSimilarityJS (sqrt : ℚ → ℚ) (a b : List ℚ) : JSNum :=
  if a.length ≠ b.length then JSNum.fin 0
  else
    let acc := cosineLoop a b
    jsDiv acc.1 (sqrt acc.2.1 * sqrt acc.2.2)

/-!  ## Keyword fallback: escapeRegex, expandQueryTerms, match counting
     (ragService.ts, lines 455–523)  -/

/-- Number of matches of `str.match(new RegExp(escapeRegex(term), 'gi'))`:
`escapeRegex` makes `term` a literal pattern, and a global regex scan
counts non-overlapping occurrences left to right.  (Both the chunk text
and every term are lowercased before this is called, so the `i` flag adds
nothing.)  The empty pattern matches once at every position, as in JS. -/
def countOccurFuel (pat : JSString) : ℕ → JSString → ℕ
  | 0, _ => 0
  | _ + 1, [] => 0
  | fuel + 1, c :: rest =>
    if pat.isPrefixOf (c :: rest) then
      1 + countOccurFuel pat fuel ((c :: rest).drop pat.length)
    else
      countOccurFuel pat fuel rest

/-- Non-overlapping occurrence count; the fuel `s.length + 1` always
suffices since every step consumes at least one character.  An empty
pattern matches once at every position (JS `''.match` semantics). -/
def countOccur (pat s : JSString) : ℕ :=
  if pat = [] then s.length + 1 else countOccurFuel pat (s.length + 1) s

/-- The synonym table of `expandQueryTerms` (ragService.ts 503–514). -/
def synonymsTable : List (JSString × List JSString) :=
  [("mac".data, ["apple".data, "macbook".data, "imac".data, "macintosh".data, "macos".data]),
   ("apple".data, ["mac".data, "macbook".data, "imac".data, "iphone".data, "ipad".data]),
   ("macbook".data, ["mac".data, "apple".data, "laptop".data]),
   ("dell".data, ["latitude".data, "optiplex".data, "precision".data, "xps".data]),
   ("laptop".data, ["notebook".data, "portable".data, "macbook".data, "latitude".data]),
   ("computer".data, ["pc".data, "machine".data, "workstation".data, "desktop".data, "laptop".data]),
   ("specs".data, ["specifications".data, "spec".data, "configuration".data, "config".data, "requirements".data]),
   ("specifications".data, ["specs".data, "spec".data, "configuration".data, "config".data]),
   ("price".data, ["cost".data, "pricing".data, "amount".data, "fee".data]),
   ("cost".data, ["price".data, "pricing".data, "amount".data, "expense".data])]

/-- Insert into a JS `Set` model: a duplicate-free list in insertion order. -/
def setAdd (acc : List JSString) (w : JSString) : List JSString :=
  if w ∈ acc then acc else acc ++ [w]

/-- `expandQueryTerms(query)` (ragService.ts 498–523): lowercase words of
length > 2 plus their synonyms, in JS `Set` insertion order. -/
def expandQueryTerms (query : JSString) : List JSString :=
  let words := (splitOnP Char.isWhitespace (jsToLower query)).filter
    (fun w => 2 < w.length)
  let expanded := words.foldl setAdd []
  words.foldl
    (fun acc w =>
      match synonymsTable.lookup w with
      | some syns => syns.foldl setAdd acc
      | none => acc)
    expanded

/-- The keyword score of one chunk text against the expanded terms
(ragService.ts 462–467). -/
def keywordScore (terms : List JSString) (chunkContent : JSString) : ℕ :=
  terms.foldl (fun score term => score + countOccur term (jsToLower chunkContent)) 0

example : expandQueryTerms ("The Mac specs".data) =
    [("the".data), ("mac".data), ("specs".data), ("apple".data), ("macbook".data),
     ("imac".data), ("macintosh".data), ("macos".data), ("specifications".data),
     ("spec".data), ("configuration".data), ("config".data), ("requirements".data)] := by
  decide

example : countOccur ("ab".data) ("xabab".data) = 2 := by decide

/-!  ## searchDocuments (ragService.ts, lines 411–490)

`getAllDocuments()` is modelled by passing the store contents `docs`;
`generateEmbedding(query)` is modelled by `queryEmbedding : Option (List ℚ)`
(`none` = the fetch threw).  The inner body is `searchDocumentsE`
(`Except` models a thrown exception); the `try/catch` wrapper returning
`[]` is `searchDocuments`. -/

/-- A `(chunk, score, docName)` entry of the `scoredChunks` array. -/
abbrev ScoredChunk := DocumentChunk × ℚ × JSString

/-- `documents.some(doc => doc.chunks.some(c => c.embedding))`
(ragService.ts 417): is any `embedding` field present. -/
def hasEmbeddingsDocs (docs : List Document) : Bool :=
  docs.any (fun doc => doc.chunks.any (fun c => c.embedding.isSome))

/-- The nested push loop of the vector branch (ragService.ts 426–437):
chunks carrying an embedding, scored by cosine similarity, in store order. -/
def vectorScored (sqrt : ℚ → ℚ) (queryEmbedding : List ℚ)
    (docs : List Document) : List ScoredChunk :=
  docs.flatMap (fun doc =>
    doc.chunks.filterMap (fun chunk =>
      match chunk.embedding with
      | some emb =>
          some (chunk, cosineSimilarity sqrt queryEmbedding emb, doc.name)
      | none => none))

/-- The nested push loop of the keyword branch (ragService.ts 459–473):
chunks with a positive keyword score against the expanded terms. -/
def keywordScored (query : JSString) (docs : List Document) :
    List ScoredChunk :=
  let expandedTerms := expandQueryTerms query
  docs.flatMap (fun doc =>
    doc.chunks.filterMap (fun chunk =>
      let score := keywordScore expandedTerms chunk.content
      if 0 < score then some (chunk, (score : ℚ), doc.name) else none))

/-- Stable insertion into a list kept in non-increasing score order: an
entry goes after every entry whose score is at least its own. -/
def insertByScore (x : ScoredChunk) : List ScoredChunk → List ScoredChunk
  | [] => [x]
  | y :: ys => if x.2.1 ≤ y.2.1 then y :: insertByScore x ys else x :: y :: ys

/-- `scoredChunks.sort((a, b) => b.score - a.score)`: ECMAScript 2019
`sort` is a stable sort by the comparator, i.e. non-increasing score with
ties kept in push order; a stable sort is modelled by stable insertion
sort. -/
def sortByScore (l : List ScoredChunk) : List ScoredChunk :=
  l.foldr insertByScore []

/-- The `.map` of the vector branch (ragService.ts 444–451): spread the
chunk, adding `similarity` and `documentName` to its metadata. -/
def applyMetaVector (entry : ScoredChunk) : DocumentChunk :=
  { entry.1 with
    metadata := { entry.1.metadata with
                  similarity := some entry.2.1
                  documentName := some entry.2.2 } }

/-- The `.map` of the keyword branch (ragService.ts 477–484):
`similarity: item.score / 10`. -/
def applyMetaKeyword (entry : ScoredChunk) : DocumentChunk :=
  { entry.1 with
    metadata := { entry.1.metadata with
                  similarity := some (entry.2.1 / 10)
                  documentName := some entry.2.2 } }

/-- Body of `searchDocuments` up to the `catch` (ragService.ts 412–485).
An `Except.error` is a thrown exception reaching the `catch`. -/
def searchDocumentsE (sqrt : ℚ → ℚ) (docs : List Document) (query : JSString)
    (queryEmbedding : Option (List ℚ)) (topK : ℕ) :
    Except JSString (List DocumentChunk) :=
  if hasEmbeddingsDocs docs then
    match queryEmbedding with
    | none => Except.error ("Embedding failed".data)
    | some qe =>
        Except.ok
          (((sortByScore (vectorScored sqrt qe docs)).take topK).map
            applyMetaVector)
  else
    Except.ok
      (((sortByScore (keywordScored query docs)).take topK).map
        applyMetaKeyword)

/-- `searchDocuments(query, topK)` (ragService.ts 411–490): the `catch`
turns any internal failure into `[]`. -/
def searchDocuments (sqrt : ℚ → ℚ) (docs : List Document) (query : JSString)
    (queryEmbedding : Option (List ℚ)) (topK : ℕ := 5) : List DocumentChunk :=
  match searchDocumentsE sqrt docs query queryEmbedding topK with
  | Except.ok r => r
  | Except.error _ => []

/-!  ## buildRAGContext (ragService.ts, lines 526–613)  -/

/-- The fixed system preamble (ragService.ts 540–550). -/
def systemPromptStr : JSString :=
  ("You are a document assistant. You MUST follow these rules EXACTLY:\n\nSTRICT RULES:\n1. ONLY use information that appears EXACTLY in the document below\n2. When answering, COPY the exact text from the document - do not paraphrase\n3. If you cannot find the EXACT answer in the document, say \"I could not find this specific information in the document\"\n4. NEVER make up or infer information that is not explicitly written\n5. NEVER mix information from different sections\n6. Format your answer by quoting the relevant text directly\n\nThe most relevant sections are shown first below.".data)

/-- `'═'.repeat(60)`. -/
def doubleBar : JSString := List.replicate 60 '═'

/-- `'-'.repeat(40)`. -/
def dashBar : JSString := List.replicate 40 '-'

/-- `'─'.repeat(40)`. -/
def lightBar : JSString := List.replicate 40 '─'

/-- Decimal rendering of `index + 1` for the `[Section ${index + 1}]` tag. -/
def natStr (n : ℕ) : JSString := (Nat.repr n).data

/-- One `relevantChunks.forEach` iteration (ragService.ts 560–565),
including the `|| 'Document'` fallback on a missing or empty name. -/
def renderChunk (index : ℕ) (chunk : DocumentChunk) : JSString :=
  let docName :=
    match chunk.metadata.documentName with
    | some n => if n = [] then ("Document".data) else n
    | none => ("Document".data)
  ("[Section ".data) ++ natStr (index + 1) ++ ("] From \"".data) ++ docName ++
    ("\":\n".data) ++ dashBar ++ ("\n".data) ++ chunk.content ++ ("\n\n".data)

/-- PART 1 of the context (ragService.ts 555–566): the relevant-chunk
section, empty when there are no relevant chunks. -/
def chunkSection (relevantChunks : List DocumentChunk) : JSString :=
  if relevantChunks.length = 0 then []
  else
    ("\n".data) ++ doubleBar ++ ("\n".data) ++
    ("🎯 MOST RELEVANT SECTIONS FOR YOUR QUESTION:\n".data) ++
    doubleBar ++ ("\n\n".data) ++
    (relevantChunks.enum.map (fun p => renderChunk p.1 p.2)).flatten

/-- The header opening PART 2 (ragService.ts 569–571). -/
def fullDocHeader : JSString :=
  ("\n".data) ++ doubleBar ++ ("\n".data) ++
  ("📄 FULL DOCUMENT CONTENT (for additional context):\n".data) ++
  doubleBar ++ ("\n\n".data)

/-- The uncounted per-document header `\nFILE: ${doc.name}\n───…─\n`
(ragService.ts 584–585). -/
def fileHeader (doc : Document) : JSString :=
  ("\nFILE: ".data) ++ doc.name ++ ("\n".data) ++ lightBar ++ ("\n".data)

/-- The full-document loop of `buildRAGContext` (ragService.ts 576–597),
threading `(context, totalLength)`.  `remainingSpace` is an integer since
`maxTotalLength - totalLength` can be negative; the `break` stops the
loop after appending the truncation notice. -/
def addDocsLoop : List Document → JSString × ℕ → JSString × ℕ
  | [], st => st
  | doc :: rest, (context, totalLength) =>
    let remainingSpace : ℤ := 300000 - (totalLength : ℤ)
    if remainingSpace < 1000 then
      (context ++ ("\n[Additional document content truncated due to size]\n".data),
       totalLength)
    else
      let context := context ++ fileHeader doc
      if (doc.content.length : ℤ) ≤ remainingSpace then
        addDocsLoop rest
          (context ++ doc.content ++ ("\n".data),
           totalLength + doc.content.length)
      else
        addDocsLoop rest
          (context ++ doc.content.take (remainingSpace - 100).toNat ++
             ("\n[... truncated ...]\n".data),
           300000)

/-- The `context` string of `buildRAGContext` (ragService.ts 552–597):
PART 1, then the PART 2 header, then the budgeted document loop with
`totalLength` initialised to the length accumulated so far. -/
def ragContext (docs : List Document) (relevantChunks : List DocumentChunk) :
    JSString :=
  let context := chunkSection relevantChunks ++ fullDocHeader
  (addDocsLoop docs (context, context.length)).1

/-- The closing instruction of the final template (ragService.ts 608). -/
def closingStr : JSString :=
  ("IMPORTANT: Copy the EXACT text from the document that answers this question. Do not paraphrase or interpret:".data)

/-- The tail of the final template after `context`: separator, question
banner and closing instruction (ragService.ts 600–608). -/
def questionTail (query : JSString) : JSString :=
  ("\n\n".data) ++ doubleBar ++ ("\nUSER QUESTION: ".data) ++ query ++
    ("\n".data) ++ doubleBar ++ ("\n\n".data) ++ closingStr

/-- `buildRAGContext(query, topK)` (ragService.ts 526–613): the query
itself when the store is empty, otherwise the assembled prompt. -/
def buildRAGContext (sqrt : ℚ → ℚ) (docs : List Document) (query : JSString)
    (queryEmbedding : Option (List ℚ)) (topK : ℕ := 10) : JSString :=
  if docs.length = 0 then query
  else
    let relevantChunks := searchDocuments sqrt docs query queryEmbedding topK
    systemPromptStr ++ ("\n\n".data) ++ ragContext docs relevantChunks ++
      questionTail query

/-!  ## uploadDocument (ragService.ts, lines 297–373)

`parseFile` is an effect whose successful result is the `content`
argument; `Date.now()`/`Math.random()` make the `documentId`, and
`new Date().toISOString()` the timestamp, both passed in; the per-chunk
`generateEmbedding` calls are the oracle `embedOracle : ℕ → Option (List ℚ)`
(`none` = that call threw and the `catch` fell through to the
non-embedded chunk).  `checkEmbeddingModel()`s result is `useEmbeddings`. -/

/-- The chunk-building loop of `uploadDocument` (ragService.ts 321–349):
exactly one chunk per text chunk, in order; the embedding field is set
only when embeddings are enabled and that chunk's call succeeded. -/
def buildChunks (documentId : JSString) (useEmbeddings : Bool)
    (embedOracle : ℕ → Option (List ℚ)) (i : ℕ) :
    List JSString → List DocumentChunk
  | [] => []
  | t :: rest =>
    { id := documentId ++ ("_chunk_".data) ++ natStr i
      documentId := documentId
      content := t
      embedding := if useEmbeddings then embedOracle i else none
      metadata := { chunkIndex := some i } } ::
      buildChunks documentId useEmbeddings embedOracle (i + 1) rest

/-- `uploadDocument(file)` after a successful parse (ragService.ts
297–373): chunk the content with `chunkText(content, 800, 100)`, attach
embeddings where available, and store the resulting document. -/
def uploadDocument (documentId uploadedAt fileName fileType : JSString)
    (fileSize : ℕ) (content : JSString) (useEmbeddings : Bool)
    (embedOracle : ℕ → Option (List ℚ)) : Document :=
  let textChunks := chunkText content 800 100
  { id := documentId
    name := fileName
    type := fileType
    size := fileSize
    uploadedAt := uploadedAt
    content := content
    chunks := buildChunks documentId useEmbeddings embedOracle 0 textChunks }

/-!  ## parsePDF (ragService.ts, lines 143–226)

pdf.js and tesseract.js are external: the text items pdf.js extracts for
each page are the input `pages`, the per-page OCR result is the oracle
`ocr` (1-indexed, as `pageNum` is), and `ctxOk` tells whether
`canvas.getContext('2d')` succeeded for a page (the `continue` on a null
context). -/

/-- One pdf.js text item: either a plain string or an object whose `str`
or `text` field is used, with JS truthiness (an empty string falls
through). -/
inductive PDFItem where
  | plain (s : JSString)
  | obj (strField : Option JSString) (textField : Option JSString)
deriving DecidableEq

/-- The item-to-text cascade of ragService.ts 167–172. -/
def itemText : PDFItem → JSString
  | PDFItem.plain s => s
  | PDFItem.obj strField textField =>
    match strField with
    | some s =>
        if s ≠ [] then s
        else match textField with
             | some t => if t ≠ [] then t else []
             | none => []
    | none =>
        match textField with
        | some t => if t ≠ [] then t else []
        | none => []

/-- Page text (ragService.ts 166–174): item texts, blank ones dropped,
joined by single spaces. -/
def pageTextOf (items : List PDFItem) : JSString :=
  joinSpace ((items.map itemText).filter (fun t => 0 < (jsTrim t).length))

/-- The direct-extraction loop (ragService.ts 161–179): page texts with
non-blank trim, each followed by `\n\n`. -/
def directText (pages : List (List PDFItem)) : JSString :=
  pages.foldl
    (fun fullText page =>
      let pageText := pageTextOf page
      if 0 < (jsTrim pageText).length then fullText ++ pageText ++ ("\n\n".data)
      else fullText)
    []

/-- The OCR loop (ragService.ts 192–212): pages `1 … min(numPages, 10)`,
skipping pages whose canvas context is unavailable. -/
def ocrText (numPages : ℕ) (ocr : ℕ → JSString) (ctxOk : ℕ → Bool) :
    JSString :=
  (List.range (min numPages 10)).foldl
    (fun acc i =>
      if ctxOk (i + 1) then acc ++ ocr (i + 1) ++ ("\n\n".data) else acc)
    []

/-- `parsePDF(file)` (ragService.ts 143–226): direct extraction, OCR
fallback when its trimmed text is shorter than 10 characters, error when
the OCR text is still shorter than 10. -/
def parsePDF (pages : List (List PDFItem)) (ocr : ℕ → JSString)
    (ctxOk : ℕ → Bool) : Except JSString JSString :=
  let fullText := directText pages
  if (jsTrim fullText).length < 10 then
    let o := ocrText pages.length ocr ctxOk
    if (jsTrim o).length < 10 then
      Except.error ("Could not extract text from PDF using OCR".data)
    else Except.ok (jsTrim o)
  else Except.ok (jsTrim fullText)

/-!  ## parseFile dispatch (ragService.ts, lines 99–140)

The four per-format extractors are external parsers; the claim is about
which one a file is routed to, so the model returns the selected format
(or the `Unsupported file type` error). -/

/-- The four per-format extractors of `parseFile`. -/
inductive FileKind where
  | text
  | pdf
  | docx
  | excel
deriving DecidableEq

/-- The `if`-chain of `parseFile` (ragService.ts 107–133) over the MIME
type and the lowercased file name; `none` means no branch matched. -/
def parseFileKind (fileType rawName : JSString) : Option FileKind :=
  let fileName := jsToLower rawName
  if fileType = ("text/plain".data) ∨ (".txt".data).isSuffixOf fileName ∨
      (".md".data).isSuffixOf fileName then
    some FileKind.text
  else if fileType = ("application/pdf".data) ∨
      (".pdf".data).isSuffixOf fileName then
    some FileKind.pdf
  else if fileType =
      ("application/vnd.openxmlformats-officedocument.wordprocessingml.document".data) ∨
      (".docx".data).isSuffixOf fileName then
    some FileKind.docx
  else if fileType =
      ("application/vnd.openxmlformats-officedocument.spreadsheetml.sheet".data) ∨
      fileType = ("application/vnd.ms-excel".data) ∨
      (".xlsx".data).isSuffixOf fileName ∨
      (".xls".data).isSuffixOf fileName then
    some FileKind.excel
  else none

/-- `parseFile` routing with the `Unsupported file type` error
(ragService.ts 135, `${fileType || fileName}` with JS truthiness). -/
def parseFileE (fileType rawName : JSString) : Except JSString FileKind :=
  match parseFileKind fileType rawName with
  | some k => Except.ok k
  | none =>
      Except.error (("Unsupported file type: ".data) ++
        (if fileType ≠ [] then fileType else jsToLower rawName))

example : parseFileKind ("".data) ("Notes.MD".data) = some FileKind.text := by
  decide

example : parseFileKind ("application/zip".data) ("a.zip".data) = none := by
  decide

/-!  ## Lemmas about the stable sort  -/

theorem mem_insertByScore {z x : ScoredChunk} {l : List ScoredChunk} :
    z ∈ insertByScore x l ↔ z = x ∨ z ∈ l := by
  induction l with
  | nil => simp [insertByScore]
  | cons y ys ih =>
    simp only [insertByScore]
    split
    · simp only [List.mem_cons, ih]
      tauto
    · simp only [List.mem_cons]

theorem pairwise_insertByScore {x : ScoredChunk} {l : List ScoredChunk}
    (h : List.Pairwise (fun a b : ScoredChunk => b.2.1 ≤ a.2.1) l) :
    List.Pairwise (fun a b : ScoredChunk => b.2.1 ≤ a.2.1)
      (insertByScore x l) := by
  induction l with
  | nil => simp [insertByScore]
  | cons y ys ih =>
    rcases List.pairwise_cons.mp h with ⟨hy, hys⟩
    simp only [insertByScore]
    split
    · rename_i hle
      refine List.pairwise_cons.mpr ⟨?_, ih hys⟩
      intro z hz
      rcases mem_insertByScore.mp hz with rfl | hz
      · exact hle
      · exact hy z hz
    · rename_i hgt
      refine List.pairwise_cons.mpr ⟨?_, h⟩
      intro z hz
      rcases List.mem_cons.mp hz with rfl | hz
      · exact le_of_not_le hgt
      · exact le_trans (hy z hz) (le_of_not_le hgt)

theorem sortByScore_pairwise (l : List ScoredChunk) :
    List.Pairwise (fun a b : ScoredChunk => b.2.1 ≤ a.2.1) (sortByScore l) := by
  induction l with
  | nil => simp [sortByScore]
  | cons x xs ih => exact pairwise_insertByScore ih

theorem mem_sortByScore {z : ScoredChunk} {l : List ScoredChunk} :
    z ∈ sortByScore l ↔ z ∈ l := by
  induction l with
  | nil => simp [sortByScore]
  | cons x xs ih =>
    show z ∈ insertByScore x (xs.foldr insertByScore []) ↔ z ∈ x :: xs
    rw [mem_insertByScore]
    rw [show xs.foldr insertByScore [] = sortByScore xs from rfl, ih,
      List.mem_cons]

theorem length_insertByScore (x : ScoredChunk) (l : List ScoredChunk) :
    (insertByScore x l).length = l.length + 1 := by
  induction l with
  | nil => rfl
  | cons y ys ih =>
    simp only [insertByScore]
    split
    · simp [ih]
    · simp

theorem length_sortByScore (l : List ScoredChunk) :
    (sortByScore l).length = l.length := by
  induction l with
  | nil => rfl
  | cons x xs ih =>
    show (insertByScore x (xs.foldr insertByScore [])).length = (x :: xs).length
    rw [length_insertByScore]
    rw [show xs.foldr insertByScore [] = sortByScore xs from rfl, ih,
      List.length_cons]

/-!  ## Claim C7: parseFile dispatch  -/

/-- Claim C7: `parseFile` dispatches on MIME type or (lowercased) filename
extension to exactly one per-format extractor — plain text/markdown, then
PDF, then DOCX, then XLSX/XLS, in source order — and produces the
`Unsupported file type` error exactly for the files matching none of the
four formats. -/
theorem parseFile_dispatch (fileType rawName : JSString) :
    ((∃ k, parseFileE fileType rawName = Except.ok k) ↔
      ((fileType = ("text/plain".data) ∨
          (".txt".data).isSuffixOf (jsToLower rawName) ∨
          (".md".data).isSuffixOf (jsToLower rawName)) ∨
        (fileType = ("application/pdf".data) ∨
          (".pdf".data).isSuffixOf (jsToLower rawName)) ∨
        (fileType =
            ("application/vnd.openxmlformats-officedocument.wordprocessingml.document".data) ∨
          (".docx".data).isSuffixOf (jsToLower rawName)) ∨
        (fileType =
            ("application/vnd.openxmlformats-officedocument.spreadsheetml.sheet".data) ∨
          fileType = ("application/vnd.ms-excel".data) ∨
          (".xlsx".data).isSuffixOf (jsToLower rawName) ∨
          (".xls".data).isSuffixOf (jsToLower rawName)))) ∧
    (parseFileKind fileType rawName = none →
      parseFileE fileType rawName =
        Except.error (("Unsupported file type: ".data) ++
          (if fileType ≠ [] then fileType else jsToLower rawName))) := by
  constructor
  · simp only [parseFileE, parseFileKind]
    split_ifs with h1 h2 h3 h4 <;> simp_all
  · intro h
    simp only [parseFileE, h]

/-- Witness for `parseFile_dispatch` at a file matching no format. -/
theorem parseFile_dispatch_witness :
    parseFileE ("application/zip".data) ("a.zip".data) =
      Except.error (("Unsupported file type: ".data) ++
        (if ("application/zip".data) ≠ ([] : JSString) then
          ("application/zip".data)
        else jsToLower ("a.zip".data))) :=
  (parseFile_dispatch (("application/zip".data)) (("a.zip".data))).2 (by decide)

/-!  ## Claim C5: parsePDF OCR fallback  -/

/-- Claim C5: `parsePDF` falls back to OCR exactly when direct extraction
yields trimmed text shorter than 10 characters; the OCR pass reads at most
the first `min(numPages, 10)` pages (the result is unchanged by what OCR
would return beyond them); and when the trimmed OCR output is also shorter
than 10 characters the parse fails with an error. -/
theorem parsePDF_ocr_fallback (pages : List (List PDFItem)) (ocr : ℕ → JSString)
    (ctxOk : ℕ → Bool) :
    (10 ≤ (jsTrim (directText pages)).length →
      parsePDF pages ocr ctxOk = Except.ok (jsTrim (directText pages))) ∧
    ((jsTrim (directText pages)).length < 10 →
      ((jsTrim (ocrText pages.length ocr ctxOk)).length < 10 →
        parsePDF pages ocr ctxOk =
          Except.error ("Could not extract text from PDF using OCR".data)) ∧
      (10 ≤ (jsTrim (ocrText pages.length ocr ctxOk)).length →
        parsePDF pages ocr ctxOk =
          Except.ok (jsTrim (ocrText pages.length ocr ctxOk)))) ∧
    (∀ ocr2 : ℕ → JSString,
      (∀ i, 1 ≤ i → i ≤ min pages.length 10 → ocr2 i = ocr i) →
      parsePDF pages ocr2 ctxOk = parsePDF pages ocr ctxOk) := by
  refine ⟨?_, ?_, ?_⟩
  · intro h
    simp only [parsePDF]
    rw [if_neg (by omega)]
  · intro h
    constructor
    · intro h2
      simp only [parsePDF]
      rw [if_pos (by omega), if_pos (by omega)]
    · intro h2
      simp only [parsePDF]
      rw [if_pos (by omega), if_neg (by omega)]
  · intro ocr2 hsame
    have hocr : ocrText pages.length ocr2 ctxOk = ocrText pages.length ocr ctxOk := by
      unfold ocrText
      apply List.foldl_ext
      intro acc i hi
      rw [List.mem_range] at hi
      rw [hsame (i + 1) (by omega) (by omega)]
    simp only [parsePDF, hocr]

/-- Witness for `parsePDF_ocr_fallback`: a PDF with enough direct text is
returned as-is, and a PDF with no extractable text and failing OCR is an
error. -/
theorem parsePDF_ocr_fallback_witness :
    parsePDF [[PDFItem.plain ("0123456789".data)]] (fun _ => []) (fun _ => true) =
      Except.ok (jsTrim (directText [[PDFItem.plain ("0123456789".data)]])) ∧
    parsePDF [[]] (fun _ => []) (fun _ => true) =
      Except.error ("Could not extract text from PDF using OCR".data) :=
  ⟨(parsePDF_ocr_fallback [[PDFItem.plain (("0123456789".data))]]
      (fun _ => []) (fun _ => true)).1 (by decide),
   ((parsePDF_ocr_fallback [[]] (fun _ => []) (fun _ => true)).2.1
      (by decide)).1 (by decide)⟩

/-!  ## Claim C9: cosineSimilarity  -/

theorem cosineLoop_go (a : List ℚ) (b : List ℚ) (d n1 n2 : ℚ)
    (h : a.length ≤ b.length) :
    (List.range a.length).foldl
      (fun acc i =>
        (acc.1 + a.getD i 0 * b.getD i 0,
         acc.2.1 + a.getD i 0 * a.getD i 0,
         acc.2.2 + b.getD i 0 * b.getD i 0))
      (d, n1, n2) =
    (d + (List.zipWith (fun x y => x * y) a b).sum,
     n1 + (a.map (fun x => x * x)).sum,
     n2 + ((b.take a.length).map (fun x => x * x)).sum) := by
  induction a generalizing b d n1 n2 with
  | nil => simp
  | cons x xs ih =>
    cases b with
    | nil => simp at h
    | cons y ys =>
      rw [List.length_cons, List.range_succ_eq_map, List.foldl_cons,
        List.foldl_map]
      simp only [List.getD_cons_zero, List.getD_cons_succ, Nat.succ_eq_add_one]
      rw [ih ys _ _ _ (by simpa using h)]
      simp only [List.zipWith_cons_cons, List.map_cons, List.sum_cons,
        List.take_succ_cons]
      refine Prod.ext ?_ (Prod.ext ?_ ?_) <;> simp <;> ring

theorem cosineLoop_spec (a b : List ℚ) (h : a.length = b.length) :
    cosineLoop a b =
      ((List.zipWith (fun x y => x * y) a b).sum,
       (a.map (fun x => x * x)).sum,
       (b.map (fun x => x * x)).sum) := by
  unfold cosineLoop
  rw [cosineLoop_go a b 0 0 0 (le_of_eq h), h, List.take_length]
  simp

theorem sum_zipWith_zero {a b : List ℚ}
    (h : (∀ x ∈ a, x = 0) ∨ (∀ x ∈ b, x = 0)) :
    (List.zipWith (fun x y => x * y) a b).sum = 0 := by
  induction a generalizing b with
  | nil => simp
  | cons x xs ih =>
    cases b with
    | nil => simp
    | cons y ys =>
      simp only [List.zipWith_cons_cons, List.sum_cons]
      have hx : x * y = 0 := by
        rcases h with h | h
        · rw [h x (by simp)]; ring
        · rw [h y (by simp)]; ring
      have : (List.zipWith (fun x y => x * y) xs ys).sum = 0 := by
        apply ih
        rcases h with h | h
        · exact Or.inl fun z hz => h z (by simp [hz])
        · exact Or.inr fun z hz => h z (by simp [hz])
      rw [hx, this, add_zero]

theorem sum_map_sq_zero {a : List ℚ} (h : ∀ x ∈ a, x = 0) :
    (a.map (fun x => x * x)).sum = 0 := by
  induction a with
  | nil => simp
  | cons x xs ih =>
    simp only [List.map_cons, List.sum_cons]
    rw [h x (by simp), ih fun z hz => h z (by simp [hz])]
    ring

/-- Claim C9: `cosineSimilarity` returns `0` whenever the two vectors have
unequal lengths (so the index loop never reads past either vector); on
equal lengths it returns the dot product divided by the product of the
Euclidean norms, which is the NaN of a `0/0` JS division whenever either
vector is all zeros (`Math.sqrt 0 = 0`). -/
theorem cosineSimilarity_guard (sqrt : ℚ → ℚ) (a b : List ℚ) :
    (a.length ≠ b.length →
      cosineSimilarityJS sqrt a b = JSNum.fin 0 ∧
        cosineSimilarity sqrt a b = 0) ∧
    (a.length = b.length →
      cosineSimilarityJS sqrt a b =
        jsDiv ((List.zipWith (fun x y => x * y) a b).sum)
          (sqrt ((a.map (fun x => x * x)).sum) *
            sqrt ((b.map (fun x => x * x)).sum))) ∧
    (sqrt 0 = 0 → a.length = b.length →
      ((∀ x ∈ a, x = 0) ∨ (∀ x ∈ b, x = 0)) →
      cosineSimilarityJS sqrt a b = JSNum.nan) := by
  refine ⟨?_, ?_, ?_⟩
  · intro h
    constructor
    · simp only [cosineSimilarityJS]
      rw [if_pos h]
    · simp only [cosineSimilarity]
      rw [if_pos h]
  · intro h
    simp only [cosineSimilarityJS]
    rw [if_neg (by omega), cosineLoop_spec a b h]
  · intro hsqrt h hzero
    simp only [cosineSimilarityJS]
    rw [if_neg (by omega), cosineLoop_spec a b h]
    have hdot : (List.zipWith (fun x y => x * y) a b).sum = 0 :=
      sum_zipWith_zero hzero
    have hden : sqrt ((a.map (fun x => x * x)).sum) *
        sqrt ((b.map (fun x => x * x)).sum) = 0 := by
      rcases hzero with hz | hz
      · rw [sum_map_sq_zero hz, hsqrt, zero_mul]
      · rw [sum_map_sq_zero hz, hsqrt, mul_zero]
    simp [hdot, hden, jsDiv]

/-- Witness for `cosineSimilarity_guard`: a length-mismatched pair gives
`0`, and a zero vector against a nonzero one gives NaN. -/
theorem cosineSimilarity_guard_witness :
    (cosineSimilarityJS (fun q => q) [1] [] = JSNum.fin 0 ∧
      cosineSimilarity (fun q => q) [1] [] = 0) ∧
    cosineSimilarityJS (fun _ => 0) [0, 0] [0, 3] = JSNum.nan :=
  ⟨(cosineSimilarity_guard (fun q => q) [1] []).1 (by decide),
   (cosineSimilarity_guard (fun _ => 0) [0, 0] [0, 3]).2.2 rfl rfl
     (Or.inl (by decide))⟩

/-!  ## Claim C4: uploadDocument stores every chunk, embeddings optional  -/

theorem buildChunks_map_content (documentId : JSString) (useEmbeddings : Bool)
    (embedOracle : ℕ → Option (List ℚ)) (i : ℕ) (l : List JSString) :
    (buildChunks documentId useEmbeddings embedOracle i l).map
      DocumentChunk.content = l := by
  induction l generalizing i with
  | nil => rfl
  | cons t rest ih =>
    simp only [buildChunks, List.map_cons]
    rw [ih]

theorem buildChunks_getElem (documentId : JSString) (useEmbeddings : Bool)
    (embedOracle : ℕ → Option (List ℚ)) (i : ℕ) (l : List JSString) (j : ℕ)
    (c : DocumentChunk)
    (h : (buildChunks documentId useEmbeddings embedOracle i l)[j]? = some c) :
    c.embedding = if useEmbeddings then embedOracle (i + j) else none := by
  induction l generalizing i j with
  | nil => simp [buildChunks] at h
  | cons t rest ih =>
    cases j with
    | zero =>
      simp only [buildChunks, List.getElem?_cons_zero, Option.some.injEq] at h
      rw [← h]
      simp
    | succ j =>
      simp only [buildChunks, List.getElem?_cons_succ] at h
      have := ih (i + 1) j h
      rwa [show i + 1 + j = i + (j + 1) by omega] at this

/-- Claim C4: after a successful parse, `uploadDocument` stores the
document with every text chunk of `chunkText(content, 800, 100)` present
exactly once, in original order, regardless of whether the embedding model
is available or an individual chunk embedding fails; a chunk's embedding
field is set only when embeddings were enabled and that chunk's call
succeeded, and is absent otherwise. -/
theorem uploadDocument_spec (documentId uploadedAt fileName fileType : JSString)
    (fileSize : ℕ) (content : JSString) (useEmbeddings : Bool)
    (embedOracle : ℕ → Option (List ℚ)) :
    (uploadDocument documentId uploadedAt fileName fileType fileSize content
        useEmbeddings embedOracle).content = content ∧
    (uploadDocument documentId uploadedAt fileName fileType fileSize content
        useEmbeddings embedOracle).chunks.map DocumentChunk.content =
      chunkText content 800 100 ∧
    (∀ j c,
      (uploadDocument documentId uploadedAt fileName fileType fileSize content
          useEmbeddings embedOracle).chunks[j]? = some c →
      c.embedding = if useEmbeddings then embedOracle j else none) := by
  refine ⟨rfl, buildChunks_map_content _ _ _ _ _, ?_⟩
  intro j c h
  have := buildChunks_getElem documentId useEmbeddings embedOracle 0
    (chunkText content 800 100) j c h
  rwa [Nat.zero_add] at this

/-- Witness for `uploadDocument_spec`: one chunk, with its embedding taken
from the oracle. -/
theorem uploadDocument_spec_witness :
    ({ id := ("d".data) ++ ("_chunk_".data) ++ natStr 0,
       documentId := ("d".data),
       content := ("ab. cd".data),
       embedding := some [(1 : ℚ)],
       metadata := { chunkIndex := some 0 } } : DocumentChunk).embedding =
      if true then (fun _ => some [(1 : ℚ)]) 0 else none :=
  (uploadDocument_spec (("d".data)) (("t".data)) (("f".data))
      ([] : JSString) 0 (("ab. cd".data)) true (fun _ => some [(1 : ℚ)])).2.2
    0 _ (by decide)

/-!  ## Claim C10: searchDocuments never throws  -/

/-- Claim C10: `searchDocuments` wraps its whole body in a `try/catch`
whose handler returns `[]`: when the query-embedding request fails
(`queryEmbedding = none`) it returns `[]` if any stored chunk has an
embedding, and is otherwise unaffected (the keyword branch never consults
the embedding); more generally any thrown internal error yields `[]`.
The model is read-only in the store, which is therefore left unchanged. -/
theorem searchDocuments_never_throws (sqrt : ℚ → ℚ) (docs : List Document)
    (query : JSString) (topK : ℕ) :
    (searchDocuments sqrt docs query none topK =
      if hasEmbeddingsDocs docs then []
      else
        ((sortByScore (keywordScored query docs)).take topK).map
          applyMetaKeyword) ∧
    (∀ queryEmbedding msg,
      searchDocumentsE sqrt docs query queryEmbedding topK =
        Except.error msg →
      searchDocuments sqrt docs query queryEmbedding topK = []) := by
  constructor
  · simp only [searchDocuments, searchDocumentsE]
    by_cases h : hasEmbeddingsDocs docs <;> simp [h]
  · intro queryEmbedding msg h
    simp only [searchDocuments, h]

/-- Witness for `searchDocuments_never_throws`: a store holding an embedded
chunk together with a failed query embedding returns `[]`. -/
theorem searchDocuments_never_throws_witness :
    searchDocuments (fun q => q)
      [{ id := ("d".data), name := ("n".data), type := [], size := 0,
         uploadedAt := [], content := ("x".data),
         chunks := [{ id := ("c".data), documentId := ("d".data),
                      content := ("x".data), embedding := some [1],
                      metadata := {} }] }]
      ("q".data) none 5 = [] :=
  (searchDocuments_never_throws (fun q => q) _ (("q".data)) 5).2 none
    (("Embedding failed".data)) (by rfl)

/-!  ## Claim C3: searchDocuments ranking  -/

theorem pairwise_take_sort (l : List ScoredChunk) (g : ScoredChunk → DocumentChunk)
    (hg : ∀ x y : ScoredChunk, y.2.1 ≤ x.2.1 →
      (g y).metadata.similarity.getD 0 ≤ (g x).metadata.similarity.getD 0)
    (k : ℕ) :
    List.Pairwise
      (fun a b : DocumentChunk =>
        b.metadata.similarity.getD 0 ≤ a.metadata.similarity.getD 0)
      (((sortByScore l).take k).map g) := by
  rw [List.pairwise_map]
  have hsorted := (sortByScore_pairwise l).sublist (List.take_sublist k _)
  exact hsorted.imp (fun h => hg _ _ h)

theorem mem_map_take_sort {c : DocumentChunk} {l : List ScoredChunk}
    {g : ScoredChunk → DocumentChunk} {k : ℕ}
    (h : c ∈ ((sortByScore l).take k).map g) :
    ∃ e ∈ l, c = g e := by
  rcases List.mem_map.mp h with ⟨e, he, rfl⟩
  exact ⟨e, mem_sortByScore.mp (List.Sublist.mem he (List.take_sublist k _)),
    rfl⟩

theorem mem_vectorScored {e : ScoredChunk} {sqrt : ℚ → ℚ} {qe : List ℚ}
    {docs : List Document} (h : e ∈ vectorScored sqrt qe docs) :
    ∃ emb, e.1.embedding = some emb ∧
      e.2.1 = cosineSimilarity sqrt qe emb := by
  rcases List.mem_flatMap.mp h with ⟨doc, _, hmem⟩
  rcases List.mem_filterMap.mp hmem with ⟨chunk, _, heq⟩
  cases hemb : chunk.embedding with
  | none => rw [hemb] at heq; simp at heq
  | some emb =>
    rw [hemb] at heq
    simp only [Option.some.injEq] at heq
    rw [← heq]
    exact ⟨emb, hemb, rfl⟩

theorem mem_keywordScored {e : ScoredChunk} {query : JSString}
    {docs : List Document} (h : e ∈ keywordScored query docs) :
    0 < keywordScore (expandQueryTerms query) e.1.content ∧
      e.2.1 = (keywordScore (expandQueryTerms query) e.1.content : ℚ) := by
  rcases List.mem_flatMap.mp h with ⟨doc, _, hmem⟩
  rcases List.mem_filterMap.mp hmem with ⟨chunk, _, heq⟩
  simp only [keywordScored] at heq
  split at heq
  · rename_i hpos
    simp only [Option.some.injEq] at heq
    rw [← heq]
    exact ⟨hpos, rfl⟩
  · simp at heq

/-- Claim C3: `searchDocuments` returns at most `topK` chunks, sorted in
non-increasing similarity-score order; it scores with cosine similarity
over embeddings exactly when some stored chunk carries an embedding
(every returned chunk then carries an embedding and its similarity is the
cosine of the query embedding with it), and otherwise scores with
keyword-frequency counting over the synonym-expanded query terms, keeping
only chunks with a positive keyword score (similarity is then the score
divided by 10). -/
theorem searchDocuments_ranking (sqrt : ℚ → ℚ) (docs : List Document)
    (query : JSString) (queryEmbedding : Option (List ℚ)) (topK : ℕ) :
    (searchDocuments sqrt docs query queryEmbedding topK).length ≤ topK ∧
    List.Pairwise
      (fun a b : DocumentChunk =>
        b.metadata.similarity.getD 0 ≤ a.metadata.similarity.getD 0)
      (searchDocuments sqrt docs query queryEmbedding topK) ∧
    (hasEmbeddingsDocs docs = true → ∀ qe, queryEmbedding = some qe →
      ∀ c ∈ searchDocuments sqrt docs query queryEmbedding topK,
        ∃ emb, c.embedding = some emb ∧
          c.metadata.similarity = some (cosineSimilarity sqrt qe emb)) ∧
    (hasEmbeddingsDocs docs = false →
      ∀ c ∈ searchDocuments sqrt docs query queryEmbedding topK,
        0 < keywordScore (expandQueryTerms query) c.content ∧
        c.metadata.similarity =
          some ((keywordScore (expandQueryTerms query) c.content : ℚ) / 10)) := by
  refine ⟨?_, ?_, ?_, ?_⟩
  · simp only [searchDocuments, searchDocumentsE]
    split_ifs with h
    · cases queryEmbedding with
      | none => simp
      | some qe =>
        simp only [List.length_map]
        exact List.length_take_le topK _
    · simp only [List.length_map]
      exact List.length_take_le topK _
  · simp only [searchDocuments, searchDocumentsE]
    split_ifs with h
    · cases queryEmbedding with
      | none => simp
      | some qe =>
        exact pairwise_take_sort _ applyMetaVector (fun x y hxy => hxy) topK
    · refine pairwise_take_sort _ applyMetaKeyword (fun x y hxy => ?_) topK
      show y.2.1 / 10 ≤ x.2.1 / 10
      linarith
  · intro hemb qe hqe c hc
    simp only [searchDocuments, searchDocumentsE, hemb, if_pos, hqe] at hc
    rcases mem_map_take_sort hc with ⟨e, he, rfl⟩
    rcases mem_vectorScored he with ⟨emb, hembed, hscore⟩
    exact ⟨emb, hembed, by rw [show (applyMetaVector e).metadata.similarity =
      some e.2.1 from rfl, hscore]⟩
  · intro hemb c hc
    simp only [searchDocuments, searchDocumentsE, hemb] at hc
    rw [if_neg (by simp)] at hc
    rcases mem_map_take_sort hc with ⟨e, he, rfl⟩
    rcases mem_keywordScored he with ⟨hpos, hscore⟩
    refine ⟨hpos, ?_⟩
    rw [show (applyMetaKeyword e).metadata.similarity =
      some (e.2.1 / 10) from rfl, hscore]
    rfl

/-- Store with one embedded chunk, for the vector-branch witness. -/
def vecChunk : DocumentChunk :=
  { id := ("c".data), documentId := ("d".data), content := ("x".data),
    embedding := some [1], metadata := {} }

/-- One-document store whose single chunk carries an embedding. -/
def vecStore : List Document :=
  [{ id := ("d".data), name := ("n".data), type := [], size := 0,
     uploadedAt := [], content := ("x".data), chunks := [vecChunk] }]

/-- Store with one non-embedded chunk, for the keyword-branch witness. -/
def kwChunk : DocumentChunk :=
  { id := ("c2".data), documentId := ("d2".data), content := ("mac mac".data),
    metadata := {} }

/-- One-document store whose single chunk has no embedding. -/
def kwStore : List Document :=
  [{ id := ("d2".data), name := ("n2".data), type := [], size := 0,
     uploadedAt := [], content := ("mac mac".data), chunks := [kwChunk] }]

/-- Witness for `searchDocuments_ranking`: both scoring branches at
concrete stores. -/
theorem searchDocuments_ranking_witness :
    (∃ emb,
      (applyMetaVector (vecChunk, cosineSimilarity (fun q => q) [1] [1],
        ("n".data))).embedding = some emb ∧
      (applyMetaVector (vecChunk, cosineSimilarity (fun q => q) [1] [1],
        ("n".data))).metadata.similarity =
        some (cosineSimilarity (fun q => q) [1] emb)) ∧
    (0 < keywordScore (expandQueryTerms ("mac".data))
        (applyMetaKeyword (kwChunk,
          ((keywordScore (expandQueryTerms ("mac".data)) kwChunk.content : ℕ) : ℚ),
          ("n2".data))).content ∧
      (applyMetaKeyword (kwChunk,
          ((keywordScore (expandQueryTerms ("mac".data)) kwChunk.content : ℕ) : ℚ),
          ("n2".data))).metadata.similarity =
        some ((keywordScore (expandQueryTerms ("mac".data))
          (applyMetaKeyword (kwChunk,
            ((keywordScore (expandQueryTerms ("mac".data)) kwChunk.content : ℕ) : ℚ),
            ("n2".data))).content : ℚ) / 10)) :=
  ⟨(searchDocuments_ranking (fun q => q) vecStore ("x".data) (some [1]) 5).2.2.1
      rfl [1] rfl _ (List.Mem.head _),
   (searchDocuments_ranking (fun q => q) kwStore ("mac".data) none 5).2.2.2
      rfl _ (List.Mem.head _)⟩

/-!  ## Claim C1: the context budget of buildRAGContext  -/

theorem addDocsLoop_total_le_max (docs : List Document) (context : JSString)
    (totalLength : ℕ) :
    (addDocsLoop docs (context, totalLength)).2 ≤ max totalLength 300000 := by
  induction docs generalizing context totalLength with
  | nil => exact le_max_left _ _
  | cons doc rest ih =>
    simp only [addDocsLoop]
    split_ifs with h1 h2
    · exact le_max_left _ _
    · refine (ih _ _).trans ?_
      have hfit : totalLength + doc.content.length ≤ 300000 := by omega
      rw [Nat.max_eq_right hfit]
      exact le_max_right _ _
    · refine (ih _ _).trans ?_
      rw [Nat.max_self]
      exact le_max_right _ _

/-- Claim C1 (amended): the document loop of `buildRAGContext` never
pushes the running total `totalLength` — which counts the relevant-chunk
section and the appended document contents, but not the per-document
`FILE:` headers or the truncation markers — past the 300000-character
budget: from any state, the total after the loop is at most the larger of
its entry value and 300000, because a document's content is counted only
when it fits the remaining space, it is truncated to that space with a
marker otherwise, and the loop stops with a truncation notice once fewer
than 1000 characters remain.  The second conjunct instantiates this at
the loop's actual entry state in `buildRAGContext`, whose total starts at
the length of the chunk section plus the part-2 header; that entry value
itself is unbounded (the relevant chunks are unbounded, see claim C2), so
the total can already stand above 300000 when the loop starts — the loop
then adds nothing to it — and the assembled context can exceed 300000 in
any case, by the uncounted header and marker characters; see the
counterexample. -/
theorem addDocsLoop_total_bounded (docs : List Document) (context : JSString)
    (totalLength : ℕ) (relevantChunks : List DocumentChunk) :
    ((addDocsLoop docs (context, totalLength)).2 ≤ max totalLength 300000) ∧
    ((addDocsLoop docs
        (chunkSection relevantChunks ++ fullDocHeader,
          (chunkSection relevantChunks ++ fullDocHeader).length)).2 ≤
      max (chunkSection relevantChunks ++ fullDocHeader).length 300000) :=
  ⟨addDocsLoop_total_le_max docs context totalLength,
   addDocsLoop_total_le_max docs _ _⟩

/-- A 2000-character file name (uncounted by the budget bookkeeping). -/
def bigName : JSString := List.replicate 2000 'a'

/-- A 299000-character document content (within the 300000 budget). -/
def bigContent : JSString := List.replicate 299000 'a'

/-- The single stored chunk of the oversized document. -/
def bigChunk : DocumentChunk :=
  { id := ("c".data), documentId := ("d".data), content := ("a".data),
    metadata := {} }

/-- A stored document whose content fits the budget but whose name makes
the uncounted `FILE:` header arbitrarily long. -/
def bigDoc : Document :=
  { id := ("d".data), name := bigName, type := ("text/plain".data),
    size := 299000, uploadedAt := ("t".data), content := bigContent,
    chunks := [bigChunk] }

theorem bigContent_length : bigContent.length = 299000 :=
  List.length_replicate _ _

theorem bigName_length : bigName.length = 2000 :=
  List.length_replicate _ _

theorem fileHeader_bigDoc_length : (fileHeader bigDoc).length = 2049 := by
  show (("\nFILE: ".data) ++ bigName ++ ("\n".data) ++ lightBar ++
    ("\n".data)).length = 2049
  rw [List.length_append, List.length_append, List.length_append,
    List.length_append, bigName_length,
    show lightBar.length = 40 from List.length_replicate _ _]
  decide

set_option maxRecDepth 4000 in
theorem fullDocHeader_length : fullDocHeader.length = 174 := by decide

/-- Counterexample for claim C1: with one stored document whose content is
299000 characters (within budget) and whose name is 2000 characters, the
accumulated context of `buildRAGContext` is 301224 characters long — the
`FILE:` header is appended without being counted by `totalLength`, so the
context exceeds the 300000-character limit. -/
theorem ragContext_exceeds_limit :
    300000 <
      (ragContext [bigDoc]
        (searchDocuments (fun q => q) [bigDoc] ("q".data) none 10)).length := by
  have hsearch : searchDocuments (fun q => q) [bigDoc] ("q".data) none 10 = [] :=
    rfl
  have hrag : ∀ (docs : List Document) (relevant : List DocumentChunk),
      ragContext docs relevant =
        (addDocsLoop docs
          (chunkSection relevant ++ fullDocHeader,
            (chunkSection relevant ++ fullDocHeader).length)).1 :=
    fun _ _ => rfl
  rw [hsearch, hrag]
  rw [show chunkSection [] = [] from rfl, List.nil_append, fullDocHeader_length]
  simp only [addDocsLoop]
  rw [if_neg (by norm_num), if_pos
    (by rw [show bigDoc.content = bigContent from rfl, bigContent_length]
        norm_num)]
  show 300000 <
    (fullDocHeader ++ fileHeader bigDoc ++ bigDoc.content ++ ("\n".data)).length
  have h1 : ("\n".data).length = 1 := rfl
  rw [List.length_append, List.length_append, List.length_append,
    fullDocHeader_length, fileHeader_bigDoc_length,
    show bigDoc.content = bigContent from rfl, bigContent_length, h1]
  norm_num

/-!  ## Claim C6: shape of the assembled context  -/

/-- The characters the document loop of `buildRAGContext` appends after the
part-2 header, as a function of the starting running total (the loop
appends to `context` but never reads it back). -/
def docsAppendix : List Document → ℕ → JSString
  | [], _ => []
  | doc :: rest, totalLength =>
    let remainingSpace : ℤ := 300000 - (totalLength : ℤ)
    if remainingSpace < 1000 then
      ("\n[Additional document content truncated due to size]\n".data)
    else
      if (doc.content.length : ℤ) ≤ remainingSpace then
        fileHeader doc ++ doc.content ++ ("\n".data) ++
          docsAppendix rest (totalLength + doc.content.length)
      else
        fileHeader doc ++ doc.content.take (remainingSpace - 100).toNat ++
          ("\n[... truncated ...]\n".data) ++ docsAppendix rest 300000

theorem addDocsLoop_context (docs : List Document) (context : JSString)
    (totalLength : ℕ) :
    (addDocsLoop docs (context, totalLength)).1 =
      context ++ docsAppendix docs totalLength := by
  induction docs generalizing context totalLength with
  | nil => simp [addDocsLoop, docsAppendix]
  | cons doc rest ih =>
    simp only [addDocsLoop, docsAppendix]
    split_ifs with h1 h2
    · rfl
    · rw [ih]
      simp [List.append_assoc]
    · rw [ih]
      simp [List.append_assoc]

theorem prefix_append_left {l a : JSString} (b : JSString) (h : l <+: a) :
    l <+: a ++ b :=
  h.trans (List.prefix_append a b)

/-- Claim C6 (amended): with an empty store `buildRAGContext` returns the
query unchanged; otherwise the result starts with the fixed strict-quoting
system preamble, then the top-ranked relevant chunks, then the full
document text, then the user question — which is followed by the fixed
closing instruction, so the context ends with that instruction rather
than with the question itself. -/
theorem buildRAGContext_structure (sqrt : ℚ → ℚ) (docs : List Document)
    (query : JSString) (queryEmbedding : Option (List ℚ)) (topK : ℕ) :
    (docs = [] → buildRAGContext sqrt docs query queryEmbedding topK = query) ∧
    (docs ≠ [] →
      buildRAGContext sqrt docs query queryEmbedding topK =
        systemPromptStr ++ ("\n\n".data) ++
          chunkSection (searchDocuments sqrt docs query queryEmbedding topK) ++
          fullDocHeader ++
          docsAppendix docs
            (chunkSection (searchDocuments sqrt docs query queryEmbedding topK) ++
              fullDocHeader).length ++
          questionTail query ∧
      systemPromptStr <+: buildRAGContext sqrt docs query queryEmbedding topK ∧
      closingStr <:+ buildRAGContext sqrt docs query queryEmbedding topK) := by
  have hb : docs.length ≠ 0 →
      buildRAGContext sqrt docs query queryEmbedding topK =
        systemPromptStr ++ ("\n\n".data) ++
          ragContext docs (searchDocuments sqrt docs query queryEmbedding topK) ++
          questionTail query := by
    intro h
    unfold buildRAGContext
    rw [if_neg h]
  constructor
  · intro h
    subst h
    rfl
  · intro hne
    have hlen : docs.length ≠ 0 := fun h => hne (List.length_eq_zero.mp h)
    have heq := hb hlen
    have hrag : ragContext docs
        (searchDocuments sqrt docs query queryEmbedding topK) =
        (chunkSection (searchDocuments sqrt docs query queryEmbedding topK) ++
          fullDocHeader) ++
          docsAppendix docs
            (chunkSection (searchDocuments sqrt docs query queryEmbedding topK) ++
              fullDocHeader).length :=
      addDocsLoop_context docs _ _
    refine ⟨?_, ?_, ?_⟩
    · rw [heq, hrag]
      simp only [List.append_assoc]
    · rw [heq]
      exact prefix_append_left _ (prefix_append_left _ (List.prefix_append _ _))
    · rw [heq]
      exact (List.suffix_append _ _).trans (List.suffix_append _ _)

/-- A small store for the C6 witness and counterexample. -/
def c6Doc : Document :=
  { id := ("d6".data), name := ("n6".data), type := ("text/plain".data),
    size := 2, uploadedAt := ("t".data), content := ("ab".data),
    chunks := [{ id := ("c6".data), documentId := ("d6".data),
                 content := ("ab".data), metadata := {} }] }

/-- The one-document store used for the C6 witness and counterexample. -/
def c6Store : List Document := [c6Doc]

/-- Witness for `buildRAGContext_structure`. -/
theorem buildRAGContext_structure_witness :
    buildRAGContext (fun q => q) [] ("hi".data) none 10 = ("hi".data) ∧
    (buildRAGContext (fun q => q) c6Store ("zzz".data) none 10 =
      systemPromptStr ++ ("\n\n".data) ++
        chunkSection (searchDocuments (fun q => q) c6Store ("zzz".data) none 10) ++
        fullDocHeader ++
        docsAppendix c6Store
          (chunkSection (searchDocuments (fun q => q) c6Store ("zzz".data) none 10) ++
            fullDocHeader).length ++
        questionTail ("zzz".data) ∧
      systemPromptStr <+:
        buildRAGContext (fun q => q) c6Store ("zzz".data) none 10 ∧
      closingStr <:+ buildRAGContext (fun q => q) c6Store ("zzz".data) none 10) :=
  ⟨(buildRAGContext_structure (fun q => q) [] (("hi".data)) none 10).1 rfl,
   (buildRAGContext_structure (fun q => q) c6Store (("zzz".data)) none 10).2
      (by simp [c6Store])⟩

set_option maxRecDepth 100000 in
/-- Counterexample for claim C6: the assembled context does not end with
the user question — the fixed closing instruction follows it. -/
theorem buildRAGContext_not_query_suffix :
    (("zzz".data).isSuffixOf
      (buildRAGContext (fun q => q) c6Store ("zzz".data) none 10)) = false := by
  decide

/-!  ## String lemmas for the chunker claims (C2, C8)  -/

/-- Apply a function to the last element of a list. -/
def modLast (f : JSString → JSString) : List JSString → List JSString
  | [] => []
  | [w] => [f w]
  | w :: ws => w :: modLast f ws

theorem splitOnP_ne_nil (p : Char → Bool) (s : JSString) :
    splitOnP p s ≠ [] := by
  cases s with
  | nil => simp [splitOnP]
  | cons c rest =>
    simp only [splitOnP]
    split
    · simp
    · split <;> simp

theorem mem_splitOnP_no_sep {p : Char → Bool} {s w : JSString}
    (hw : w ∈ splitOnP p s) : ∀ c ∈ w, p c = false := by
  induction s generalizing w with
  | nil =>
    simp only [splitOnP, List.mem_singleton] at hw
    subst hw
    simp
  | cons c rest ih =>
    simp only [splitOnP] at hw
    by_cases hc : p c
    · rw [if_pos hc] at hw
      rcases List.mem_cons.mp hw with rfl | hw
      · simp
      · exact ih hw
    · rw [if_neg hc] at hw
      rcases hsplit : splitOnP p rest with _ | ⟨w0, ws⟩
      · exact absurd hsplit (splitOnP_ne_nil p rest)
      · rw [hsplit] at hw
        rcases List.mem_cons.mp hw with rfl | hw
        · intro a ha
          rcases List.mem_cons.mp ha with rfl | ha
          · simpa using hc
          · exact ih (by rw [hsplit]; exact List.mem_cons_self w0 ws) a ha
        · exact ih (by rw [hsplit]; exact List.mem_cons_of_mem w0 hw)

theorem splitOnP_append_sep {p : Char → Bool} {c : Char} (hc : p c = true)
    (a b : JSString) :
    splitOnP p (a ++ c :: b) = splitOnP p a ++ splitOnP p b := by
  induction a with
  | nil =>
    show splitOnP p (c :: b) = splitOnP p [] ++ splitOnP p b
    simp only [splitOnP, hc, if_true]
    rfl
  | cons x xs ih =>
    show splitOnP p (x :: (xs ++ c :: b)) = splitOnP p (x :: xs) ++ splitOnP p b
    simp only [splitOnP, List.append_eq]
    rw [ih]
    by_cases hx : p x
    · simp only [hx, if_true]
      rfl
    · simp only [hx, Bool.false_eq_true, if_false]
      rcases hsplit : splitOnP p xs with _ | ⟨w0, ws⟩
      · exact absurd hsplit (splitOnP_ne_nil p xs)
      · simp only [List.cons_append]

theorem splitOnP_append_char {p : Char → Bool} {c : Char} (hc : p c = false)
    (a : JSString) :
    splitOnP p (a ++ [c]) = modLast (fun w => w ++ [c]) (splitOnP p a) := by
  induction a with
  | nil =>
    show splitOnP p [c] = modLast (fun w => w ++ [c]) (splitOnP p [])
    simp only [splitOnP, hc, Bool.false_eq_true, if_false]
    rfl
  | cons x xs ih =>
    show splitOnP p (x :: (xs ++ [c])) =
      modLast (fun w => w ++ [c]) (splitOnP p (x :: xs))
    simp only [splitOnP, List.append_eq]
    rw [ih]
    by_cases hx : p x
    · simp only [hx, if_true]
      rcases hsplit : splitOnP p xs with _ | ⟨w0, ws⟩
      · exact absurd hsplit (splitOnP_ne_nil p xs)
      · rfl
    · simp only [hx, Bool.false_eq_true, if_false]
      rcases hsplit : splitOnP p xs with _ | ⟨w0, ws⟩
      · exact absurd hsplit (splitOnP_ne_nil p xs)
      · cases ws with
        | nil => rfl
        | cons z zs => rfl

theorem joinSpace_jsSplit (s : JSString) : joinSpace (jsSplit ' ' s) = s := by
  induction s with
  | nil => rfl
  | cons c rest ih =>
    simp only [jsSplit] at ih ⊢
    simp only [splitOnP]
    by_cases hc : c = ' '
    · rw [if_pos (by simp [hc])]
      rcases hsplit : splitOnP (fun x => decide (x = ' ')) rest with _ | ⟨w0, ws⟩
      · exact absurd hsplit (splitOnP_ne_nil _ rest)
      · rw [hsplit] at ih
        show ' ' :: joinSpace (w0 :: ws) = c :: rest
        rw [ih, hc]
    · rw [if_neg (by simp [hc])]
      rcases hsplit : splitOnP (fun x => decide (x = ' ')) rest with _ | ⟨w0, ws⟩
      · exact absurd hsplit (splitOnP_ne_nil _ rest)
      · rw [hsplit] at ih
        cases ws with
        | nil =>
          show c :: w0 = c :: rest
          rw [show joinSpace [w0] = w0 from rfl] at ih
          rw [ih]
        | cons z zs =>
          show (c :: w0) ++ ' ' :: joinSpace (z :: zs) = c :: rest
          rw [List.cons_append,
            show w0 ++ ' ' :: joinSpace (z :: zs) = joinSpace (w0 :: z :: zs)
              from rfl, ih]

theorem jsSplit_no_space {w : JSString} (hw : ∀ c ∈ w, ¬c = ' ') :
    jsSplit ' ' w = [w] := by
  induction w with
  | nil => rfl
  | cons c rest ih =>
    simp only [jsSplit, splitOnP]
    rw [if_neg (by simpa using hw c (by simp))]
    rcases hsplit : splitOnP (fun x => decide (x = ' ')) rest with _ | ⟨w0, ws⟩
    · exact absurd hsplit (splitOnP_ne_nil _ rest)
    · have := ih (fun a ha => hw a (List.mem_cons_of_mem c ha))
      simp only [jsSplit, hsplit, List.cons.injEq] at this
      rw [this.1, this.2]

theorem jsSplit_joinSpace {ws : List JSString} (hne : ws ≠ [])
    (hw : ∀ w ∈ ws, ∀ c ∈ w, ¬c = ' ') :
    jsSplit ' ' (joinSpace ws) = ws := by
  induction ws with
  | nil => exact absurd rfl hne
  | cons w rest ih =>
    cases rest with
    | nil =>
      show jsSplit ' ' w = [w]
      exact jsSplit_no_space (hw w (by simp))
    | cons z zs =>
      show jsSplit ' ' (w ++ ' ' :: joinSpace (z :: zs)) = w :: z :: zs
      have h1 : jsSplit ' ' (w ++ ' ' :: joinSpace (z :: zs)) =
          jsSplit ' ' w ++ jsSplit ' ' (joinSpace (z :: zs)) :=
        splitOnP_append_sep (by simp) w (joinSpace (z :: zs))
      rw [h1, jsSplit_no_space (hw w (by simp)),
        ih (by simp) (fun v hv => hw v (List.mem_cons_of_mem w hv))]
      rfl

theorem mem_modLast {f : JSString → JSString} {l : List JSString} {w : JSString}
    (hw : w ∈ modLast f l) : w ∈ l ∨ w = f (l.getLast?.getD []) := by
  induction l generalizing w with
  | nil => simp [modLast] at hw
  | cons x xs ih =>
    cases xs with
    | nil =>
      simp only [modLast, List.mem_singleton] at hw
      subst hw
      simp
    | cons y ys =>
      rcases List.mem_cons.mp hw with rfl | hw
      · exact Or.inl (by simp)
      · rcases ih hw with h | h
        · exact Or.inl (List.mem_cons_of_mem x h)
        · right
          rw [h]
          rfl

theorem getLast?_getD_mem {l : List JSString} (h : l ≠ []) :
    l.getLast?.getD [] ∈ l := by
  induction l with
  | nil => exact absurd rfl h
  | cons x xs ih =>
    cases xs with
    | nil => simp
    | cons y ys =>
      have := ih (by simp)
      rw [show (x :: y :: ys).getLast? = (y :: ys).getLast? from rfl]
      exact List.mem_cons_of_mem x this

theorem jsTrim_length_le (s : JSString) : (jsTrim s).length ≤ s.length := by
  unfold jsTrim
  calc ((s.dropWhile Char.isWhitespace).reverse.dropWhile
          Char.isWhitespace).reverse.length
      = ((s.dropWhile Char.isWhitespace).reverse.dropWhile
          Char.isWhitespace).length := List.length_reverse _
    _ ≤ (s.dropWhile Char.isWhitespace).reverse.length :=
        (List.dropWhile_suffix _).sublist.length_le
    _ = (s.dropWhile Char.isWhitespace).length := List.length_reverse _
    _ ≤ s.length := (List.dropWhile_suffix _).sublist.length_le

theorem dropWhile_eq_self_of_head {p : Char → Bool} {s : JSString}
    (h : ∀ c, s.head? = some c → p c = false) : s.dropWhile p = s := by
  cases s with
  | nil => rfl
  | cons c rest => rw [List.dropWhile_cons, if_neg (by simp [h c rfl])]

theorem jsTrim_noop {s : JSString}
    (h1 : ∀ c, s.head? = some c → c.isWhitespace = false)
    (h2 : ∀ c, s.getLast? = some c → c.isWhitespace = false) :
    jsTrim s = s := by
  unfold jsTrim
  rw [dropWhile_eq_self_of_head h1,
    dropWhile_eq_self_of_head
      (fun c hc => h2 c (by rwa [List.head?_reverse] at hc)),
    List.reverse_reverse]

theorem joinSpace_head? {w : JSString} {ws : List JSString} (hw : w ≠ []) :
    (joinSpace (w :: ws)).head? = w.head? := by
  cases ws with
  | nil => rfl
  | cons z zs =>
    show (w ++ ' ' :: joinSpace (z :: zs)).head? = w.head?
    rw [List.head?_append]
    cases w with
    | nil => exact absurd rfl hw
    | cons c cw => rfl

theorem joinSpace_ne_nil {w : JSString} {ws : List JSString} (hw : w ≠ []) :
    joinSpace (w :: ws) ≠ [] := by
  cases ws with
  | nil => exact hw
  | cons z zs =>
    show w ++ ' ' :: joinSpace (z :: zs) ≠ []
    simp

theorem joinSpace_getLast? {ws : List JSString} (hne : ws ≠ [])
    (hw : ∀ w ∈ ws, w ≠ []) :
    (joinSpace ws).getLast? = (ws.getLast?.getD []).getLast? := by
  induction ws with
  | nil => exact absurd rfl hne
  | cons w rest ih =>
    cases rest with
    | nil => rfl
    | cons z zs =>
      show (w ++ ' ' :: joinSpace (z :: zs)).getLast? = _
      rw [List.getLast?_append]
      have hz : (' ' :: joinSpace (z :: zs)).getLast? =
          (joinSpace (z :: zs)).getLast? := by
        cases hj : joinSpace (z :: zs) with
        | nil => exact absurd hj (joinSpace_ne_nil (hw z (by simp)))
        | cons a as => rw [List.getLast?_cons_cons]
      rw [hz, ih (by simp) (fun v hv => hw v (List.mem_cons_of_mem w hv)),
        List.getLast?_cons_cons]
      have hmem := @getLast?_getD_mem (z :: zs) (by simp)
      have hnz : (z :: zs).getLast?.getD [] ≠ [] :=
        hw _ (List.mem_cons_of_mem w hmem)
      cases hx : ((z :: zs).getLast?.getD []).getLast? with
      | none => exact absurd (List.getLast?_eq_none_iff.mp hx) hnz
      | some c => rfl

theorem mem_lastWords {m : ℕ} {ws : List JSString} {w : JSString}
    (hw : w ∈ lastWords m ws) : w ∈ ws := by
  unfold lastWords at hw
  split at hw
  · exact hw
  · exact List.drop_subset _ _ hw

theorem lastWords_length_le {m : ℕ} (hm : 1 ≤ m) (ws : List JSString) :
    (lastWords m ws).length ≤ m := by
  unfold lastWords
  rw [if_neg (by omega), List.length_drop]
  omega

theorem lastWords_ne_nil {m : ℕ} {ws : List JSString} (hne : ws ≠ []) :
    lastWords m ws ≠ [] := by
  unfold lastWords
  split
  · exact hne
  · rename_i hm
    intro h
    have hlen := congrArg List.length h
    rw [List.length_drop] at hlen
    have : ws.length ≠ 0 := fun hh => hne (List.length_eq_zero.mp hh)
    simp only [List.length_nil] at hlen
    omega

theorem joinSpace_length_le {K : ℕ} : ∀ {ws : List JSString},
    (∀ w ∈ ws, w.length ≤ K) →
    (joinSpace ws).length ≤ ws.length * (K + 1) := by
  intro ws
  induction ws with
  | nil => intro _; simp [joinSpace]
  | cons w rest ih =>
    intro h
    cases rest with
    | nil =>
      have := h w (by simp)
      show w.length ≤ 1 * (K + 1)
      omega
    | cons z zs =>
      show (w ++ ' ' :: joinSpace (z :: zs)).length ≤ _
      have h1 := h w (by simp)
      have h2 := ih (fun v hv => h v (List.mem_cons_of_mem w hv))
      simp only [List.length_append, List.length_cons] at *
      rw [show (zs.length + 1 + 1) * (K + 1) =
        (zs.length + 1) * (K + 1) + (K + 1) from by ring]
      omega

theorem foldl_preserve {α β : Type} {P : β → Prop} {Q : α → Prop}
    (f : β → α → β) :
    ∀ l : List α, (∀ a ∈ l, Q a) →
      (∀ b a, P b → Q a → P (f b a)) → ∀ b, P b → P (l.foldl f b) := by
  intro l
  induction l with
  | nil =>
    intro _ _ b hb
    exact hb
  | cons a rest ih =>
    intro hl hf b hb
    exact ih (fun x hx => hl x (List.mem_cons_of_mem a hx)) hf (f b a)
      (hf b a hb (hl a (by simp)))

/-!  ## Claim C2: chunk sizes  -/

theorem getLast?_append_getD {a b : List JSString} (hb : b ≠ []) :
    ((a ++ b).getLast?).getD [] = (b.getLast?).getD [] := by
  rw [List.getLast?_append]
  cases hx : b.getLast? with
  | none => exact absurd (List.getLast?_eq_none_iff.mp hx) hb
  | some x => rfl

/-- Invariant of the `chunkText` loop: every emitted chunk and the
accumulator stay within `B`, every space-separated word of the
accumulator is at most `W + 1` characters (a sentence word plus at most
one appended `'.'`), and its last word — always the last word of the most
recently appended sentence — is at most `W`. -/
def ChunkInv (B W : ℕ) (st : List JSString × JSString) : Prop :=
  (∀ ch ∈ st.1, ch.length ≤ B) ∧
  st.2.length ≤ B ∧
  (∀ w ∈ jsSplit ' ' st.2, w.length ≤ W + 1) ∧
  ((jsSplit ' ' st.2).getLast?.getD []).length ≤ W

theorem chunkStep_inv {cs ov S W : ℕ} (hm : 1 ≤ ov / 5)
    {st : List JSString × JSString} {t : JSString}
    (hinv : ChunkInv (cs + ov / 5 * (W + 2) + S + 3) W st)
    (ht1 : (jsTrim t).length ≤ S)
    (ht2 : ∀ w ∈ jsSplit ' ' (jsTrim t), w.length ≤ W) :
    ChunkInv (cs + ov / 5 * (W + 2) + S + 3) W (chunkStep cs ov st t) := by
  obtain ⟨hchunks, hclen, htoks, hlast⟩ := hinv
  have httne : jsSplit ' ' (jsTrim t) ≠ [] := splitOnP_ne_nil _ _
  have htlast : ((jsSplit ' ' (jsTrim t)).getLast?.getD []).length ≤ W :=
    ht2 _ (getLast?_getD_mem httne)
  unfold chunkStep
  dsimp only
  split_ifs with h1 h2
  · -- split branch
    have hovmem : ∀ w ∈ lastWords (ov / 5) (jsSplit ' ' st.2),
        w ∈ jsSplit ' ' st.2 := fun w hw => mem_lastWords hw
    have hovne : lastWords (ov / 5) (jsSplit ' ' st.2) ≠ [] :=
      lastWords_ne_nil (splitOnP_ne_nil _ _)
    have hovnosp : ∀ w ∈ lastWords (ov / 5) (jsSplit ' ' st.2),
        ∀ c ∈ w, ¬c = ' ' := by
      intro w hw c hc
      have := mem_splitOnP_no_sep (hovmem w hw) c hc
      simpa using this
    have hsplit2 : jsSplit ' '
        (joinSpace (lastWords (ov / 5) (jsSplit ' ' st.2)) ++ ' ' :: jsTrim t) =
        lastWords (ov / 5) (jsSplit ' ' st.2) ++ jsSplit ' ' (jsTrim t) := by
      rw [show jsSplit ' '
          (joinSpace (lastWords (ov / 5) (jsSplit ' ' st.2)) ++ ' ' :: jsTrim t) =
          jsSplit ' ' (joinSpace (lastWords (ov / 5) (jsSplit ' ' st.2))) ++
            jsSplit ' ' (jsTrim t) from
        splitOnP_append_sep (by simp) _ _]
      rw [jsSplit_joinSpace hovne hovnosp]
    have hjoin : (joinSpace (lastWords (ov / 5) (jsSplit ' ' st.2))).length ≤
        ov / 5 * (W + 2) := by
      have hlen := lastWords_length_le hm (jsSplit ' ' st.2)
      have hb := joinSpace_length_le
        (fun w hw => htoks w (hovmem w hw))
      exact hb.trans (Nat.mul_le_mul_right _ hlen)
    refine ⟨?_, ?_, ?_, ?_⟩
    · intro ch hch
      rcases List.mem_append.mp hch with hch | hch
      · exact hchunks ch hch
      · rw [List.mem_singleton.mp hch]
        exact (jsTrim_length_le st.2).trans hclen
    · show (joinSpace (lastWords (ov / 5) (jsSplit ' ' st.2)) ++
        ' ' :: jsTrim t).length ≤ _
      rw [List.length_append, List.length_cons]
      linarith [hjoin, ht1, Nat.zero_le cs]
    · intro w hw
      rw [hsplit2] at hw
      rcases List.mem_append.mp hw with hw | hw
      · exact htoks w (hovmem w hw)
      · exact (ht2 w hw).trans (by omega)
    · show (((jsSplit ' ' (joinSpace (lastWords (ov / 5) (jsSplit ' ' st.2)) ++
        ' ' :: jsTrim t)).getLast?).getD []).length ≤ W
      rw [hsplit2, getLast?_append_getD httne]
      exact htlast
  · -- first sentence into an empty accumulator
    refine ⟨hchunks, ?_, ?_, ?_⟩
    · show (jsTrim t).length ≤ _
      linarith [ht1, Nat.zero_le cs, Nat.zero_le (ov / 5 * (W + 2))]
    · show ∀ w ∈ jsSplit ' ' (jsTrim t), w.length ≤ W + 1
      exact fun w hw => (ht2 w hw).trans (by omega)
    · show ((jsSplit ' ' (jsTrim t)).getLast?.getD []).length ≤ W
      exact htlast
  · -- append the sentence with a '. ' separator
    have hle : st.2.length + (jsTrim t).length ≤ cs := by
      rcases not_and_or.mp h1 with h | h
      · have := not_lt.mp h
        rwa [List.length_append] at this
      · exact absurd (by simpa using List.length_pos.mpr h2) h
    have hsplit3 : jsSplit ' ' (st.2 ++ '.' :: ' ' :: jsTrim t) =
        modLast (fun w => w ++ ['.']) (jsSplit ' ' st.2) ++
          jsSplit ' ' (jsTrim t) := by
      rw [show st.2 ++ '.' :: ' ' :: jsTrim t =
          (st.2 ++ ['.']) ++ ' ' :: jsTrim t from by
        rw [List.append_cons st.2 '.' (' ' :: jsTrim t)]]
      rw [show jsSplit ' ' ((st.2 ++ ['.']) ++ ' ' :: jsTrim t) =
          jsSplit ' ' (st.2 ++ ['.']) ++ jsSplit ' ' (jsTrim t) from
        splitOnP_append_sep (by simp) _ _]
      rw [show jsSplit ' ' (st.2 ++ ['.']) =
          modLast (fun w => w ++ ['.']) (jsSplit ' ' st.2) from
        splitOnP_append_char (by simp) st.2]
    refine ⟨hchunks, ?_, ?_, ?_⟩
    · show (st.2 ++ '.' :: ' ' :: jsTrim t).length ≤ _
      rw [List.length_append, List.length_cons, List.length_cons]
      linarith [hle, Nat.zero_le S, Nat.zero_le (ov / 5 * (W + 2))]
    · intro w hw
      rw [hsplit3] at hw
      rcases List.mem_append.mp hw with hw | hw
      · rcases mem_modLast hw with hw | hw
        · exact htoks w hw
        · rw [hw, List.length_append]
          simpa using hlast
      · exact (ht2 w hw).trans (by omega)
    · show (((jsSplit ' ' (st.2 ++ '.' :: ' ' :: jsTrim t)).getLast?).getD
        []).length ≤ W
      rw [hsplit3, getLast?_append_getD httne]
      exact htlast

/-- Claim C2 (amended): a chunk produced by `chunkText` can exceed the
`chunkSize` budget (see the counterexample); the provable bound is
`chunkSize + ⌊overlap/5⌋·(W+2) + S + 3`, where `S` bounds the trimmed
sentence lengths and `W` bounds the space-separated word lengths of the
trimmed sentences, for any `overlap ≥ 5`. -/
theorem chunkText_length_bound (text : JSString) (cs ov S W : ℕ)
    (hov : 5 ≤ ov)
    (hS : ∀ s ∈ sentencesOf text, (jsTrim s).length ≤ S)
    (hW : ∀ s ∈ sentencesOf text, ∀ w ∈ jsSplit ' ' (jsTrim s),
      w.length ≤ W) :
    ∀ ch ∈ chunkText text cs ov,
      ch.length ≤ cs + ov / 5 * (W + 2) + S + 3 := by
  have hm : 1 ≤ ov / 5 := by omega
  have hinit : ChunkInv (cs + ov / 5 * (W + 2) + S + 3) W ([], []) := by
    refine ⟨by simp, by simp, ?_, ?_⟩
    · intro w hw
      simp only [jsSplit, splitOnP, List.mem_singleton] at hw
      subst hw
      simp
    · show (([([] : JSString)].getLast?).getD []).length ≤ W
      simp
  have hfold := @foldl_preserve _ _
    (ChunkInv (cs + ov / 5 * (W + 2) + S + 3) W)
    (fun t => (jsTrim t).length ≤ S ∧
      ∀ w ∈ jsSplit ' ' (jsTrim t), w.length ≤ W)
    (chunkStep cs ov) (sentencesOf text)
    (fun t ht => ⟨hS t ht, hW t ht⟩)
    (fun st t hst hq => chunkStep_inv hm hst hq.1 hq.2)
    ([], []) hinit
  intro ch hch
  unfold chunkText at hch
  dsimp only at hch
  split_ifs at hch with h
  · rcases List.mem_append.mp hch with hch | hch
    · exact hfold.1 ch hch
    · rw [List.mem_singleton.mp hch]
      exact (jsTrim_length_le _).trans hfold.2.1
  · exact hfold.1 ch hch

/-- Witness for `chunkText_length_bound`. -/
theorem chunkText_length_bound_witness :
    ("One sentence here".data).length ≤ 12 + 10 / 5 * (8 + 2) + 17 + 3 :=
  chunkText_length_bound (("One sentence here. And two".data)) 12 10 17 8
    (by decide) (by decide) (by decide) (("One sentence here".data))
    (by decide)

/-- The claimed bound input: 501 consecutive letters with no sentence
terminator. -/
def longRun : JSString := List.replicate 501 'a'

set_option maxRecDepth 40000 in
/-- Counterexample for claim C2: `chunkText` with the default budget 500
returns a 501-character chunk for a 501-character sentence, so chunks are
not bounded by `chunkSize`. -/
theorem chunkText_exceeds_chunkSize :
    (chunkText longRun 500 50).all (fun ch => ch.length ≤ 500) = false := by
  decide

/-!  ## Claim C8: chunk overlap  -/

theorem mem_of_getLast?_eq {α : Type} {l : List α} {a : α}
    (h : l.getLast? = some a) : a ∈ l := by
  induction l with
  | nil => simp at h
  | cons x xs ih =>
    cases xs with
    | nil =>
      simp only [List.getLast?_singleton, Option.some.injEq] at h
      subst h
      simp
    | cons y ys =>
      rw [List.getLast?_cons_cons] at h
      exact List.mem_cons_of_mem x (ih h)

/-- Every space-separated word of `s` is nonempty and whitespace-free
(holds for text whose only whitespace is single inner spaces). -/
def CleanToks (s : JSString) : Prop :=
  ∀ w ∈ jsSplit ' ' s, w ≠ [] ∧ ∀ c ∈ w, c.isWhitespace = false

instance (s : JSString) : Decidable (CleanToks s) := by
  unfold CleanToks
  infer_instance

theorem cleanToks_head {s : JSString} (h : CleanToks s) :
    ∀ c, s.head? = some c → c.isWhitespace = false := by
  intro c hc
  cases hsplit : jsSplit ' ' s with
  | nil => exact absurd hsplit (splitOnP_ne_nil _ _)
  | cons w ws =>
    have hwmem : w ∈ jsSplit ' ' s := by rw [hsplit]; simp
    have hw : w ≠ [] := (h w hwmem).1
    have hjoin := joinSpace_jsSplit s
    rw [hsplit] at hjoin
    have hhead := @joinSpace_head? w ws hw
    rw [hjoin] at hhead
    rw [hhead] at hc
    have hcmem : c ∈ w := by
      cases w with
      | nil => simp at hc
      | cons x xs =>
        simp only [List.head?_cons, Option.some.injEq] at hc
        rw [← hc]
        simp
    exact (h w hwmem).2 c hcmem

theorem cleanToks_last {s : JSString} (h : CleanToks s) :
    ∀ c, s.getLast? = some c → c.isWhitespace = false := by
  intro c hc
  have hne : jsSplit ' ' s ≠ [] := splitOnP_ne_nil _ _
  have hlastmem := getLast?_getD_mem hne
  have hlasttok : (jsSplit ' ' s).getLast?.getD [] ≠ [] :=
    (h _ hlastmem).1
  have hlast := joinSpace_getLast? hne (fun w hw => (h w hw).1)
  rw [joinSpace_jsSplit s] at hlast
  rw [hlast] at hc
  exact (h _ hlastmem).2 c (mem_of_getLast?_eq hc)

theorem cleanToks_trim_noop {s : JSString} (h : CleanToks s) : jsTrim s = s :=
  jsTrim_noop (cleanToks_head h) (cleanToks_last h)

/-- Invariant of the `chunkText` loop for the overlap claim: the
accumulator is only empty before the first chunk is flushed, it is made of
clean words, adjacent flushed chunks satisfy the overlap-prefix relation,
and the accumulator extends the overlap prefix of the last flushed chunk. -/
def OverlapInv (m : ℕ) (st : List JSString × JSString) : Prop :=
  (st.2 = [] → st.1 = []) ∧
  (st.2 ≠ [] → CleanToks st.2) ∧
  (st.1 ≠ [] → st.2 ≠ [] ∧
    joinSpace (lastWords m (jsSplit ' ' (st.1.getLast?.getD []))) <+: st.2) ∧
  List.Chain' (fun prev next =>
    joinSpace (lastWords m (jsSplit ' ' prev)) <+: next) st.1

theorem overlapInv_chain_append {m : ℕ} {st : List JSString × JSString}
    (hinv : OverlapInv m st) (hne : st.2 ≠ []) :
    List.Chain' (fun prev next =>
      joinSpace (lastWords m (jsSplit ' ' prev)) <+: next)
      (st.1 ++ [jsTrim st.2]) := by
  have htrim : jsTrim st.2 = st.2 := cleanToks_trim_noop (hinv.2.1 hne)
  refine List.chain'_append.mpr ⟨hinv.2.2.2, List.chain'_singleton _, ?_⟩
  intro x hx y hy
  simp only [List.head?_cons, Option.mem_def, Option.some.injEq] at hy
  subst hy
  cases hlast : st.1.getLast? with
  | none => simp [hlast] at hx
  | some prev =>
    simp only [hlast, Option.mem_def, Option.some.injEq] at hx
    subst hx
    have h1ne : st.1 ≠ [] := by
      intro hh
      rw [hh] at hlast
      simp at hlast
    have := (hinv.2.2.1 h1ne).2
    rw [hlast] at this
    simp only [Option.getD_some] at this
    rwa [htrim]

theorem chunkStep_overlap {cs ov : ℕ} {st : List JSString × JSString}
    {t : JSString} (hinv : OverlapInv (ov / 5) st)
    (ht : CleanToks (jsTrim t)) (_htne : jsTrim t ≠ []) :
    OverlapInv (ov / 5) (chunkStep cs ov st t) := by
  unfold chunkStep
  dsimp only
  split_ifs with h1 h2
  · -- split branch
    have hcne : st.2 ≠ [] := by
      intro hh
      rw [hh] at h1
      simp at h1
    have hclean := hinv.2.1 hcne
    have htrim : jsTrim st.2 = st.2 := cleanToks_trim_noop hclean
    have hovne : lastWords (ov / 5) (jsSplit ' ' st.2) ≠ [] :=
      lastWords_ne_nil (splitOnP_ne_nil _ _)
    have hovnosp : ∀ w ∈ lastWords (ov / 5) (jsSplit ' ' st.2),
        ∀ c ∈ w, ¬c = ' ' := by
      intro w hw c hc
      have := mem_splitOnP_no_sep (mem_lastWords hw) c hc
      simpa using this
    have hsplitC : jsSplit ' '
        (joinSpace (lastWords (ov / 5) (jsSplit ' ' st.2)) ++ ' ' :: jsTrim t) =
        lastWords (ov / 5) (jsSplit ' ' st.2) ++ jsSplit ' ' (jsTrim t) := by
      rw [show jsSplit ' '
          (joinSpace (lastWords (ov / 5) (jsSplit ' ' st.2)) ++ ' ' :: jsTrim t) =
          jsSplit ' ' (joinSpace (lastWords (ov / 5) (jsSplit ' ' st.2))) ++
            jsSplit ' ' (jsTrim t) from splitOnP_append_sep (by simp) _ _,
        jsSplit_joinSpace hovne hovnosp]
    refine ⟨?_, ?_, ?_, ?_⟩
    · intro hh
      exact absurd hh (by simp)
    · intro _ w hw
      rw [hsplitC] at hw
      rcases List.mem_append.mp hw with hw | hw
      · exact hclean w (mem_lastWords hw)
      · exact ht w hw
    · intro _
      refine ⟨by simp, ?_⟩
      rw [List.getLast?_concat]
      simp only [Option.getD_some]
      rw [htrim]
      exact List.prefix_append _ _
    · exact overlapInv_chain_append hinv hcne
  · -- first sentence into the empty accumulator
    have h0 := hinv.1 h2
    refine ⟨fun _ => h0, fun _ => ht, ?_, ?_⟩
    · intro hh
      exact absurd h0 hh
    · exact hinv.2.2.2
  · -- append with '. '
    refine ⟨?_, ?_, ?_, hinv.2.2.2⟩
    · intro hh
      exact absurd hh (by simp)
    · intro _
      have hclean := hinv.2.1 h2
      have hsplit3 : jsSplit ' ' (st.2 ++ '.' :: ' ' :: jsTrim t) =
          modLast (fun w => w ++ ['.']) (jsSplit ' ' st.2) ++
            jsSplit ' ' (jsTrim t) := by
        rw [show st.2 ++ '.' :: ' ' :: jsTrim t =
            (st.2 ++ ['.']) ++ ' ' :: jsTrim t from by
          rw [List.append_cons st.2 '.' (' ' :: jsTrim t)],
          show jsSplit ' ' ((st.2 ++ ['.']) ++ ' ' :: jsTrim t) =
            jsSplit ' ' (st.2 ++ ['.']) ++ jsSplit ' ' (jsTrim t) from
            splitOnP_append_sep (by simp) _ _,
          show jsSplit ' ' (st.2 ++ ['.']) =
            modLast (fun w => w ++ ['.']) (jsSplit ' ' st.2) from
            splitOnP_append_char (by simp) st.2]
      intro w hw
      rw [hsplit3] at hw
      rcases List.mem_append.mp hw with hw | hw
      · rcases mem_modLast hw with hw | hw
        · exact hclean w hw
        · have hlastmem := @getLast?_getD_mem
            (jsSplit ' ' st.2) (splitOnP_ne_nil _ _)
          refine ⟨by simp [hw], ?_⟩
          intro c hc
          rw [hw] at hc
          rcases List.mem_append.mp hc with hc | hc
          · exact (hclean _ hlastmem).2 c hc
          · rw [List.mem_singleton.mp hc]
            decide
      · exact ht w hw
    · intro h1ne
      refine ⟨by simp, ?_⟩
      have := (hinv.2.2.1 h1ne).2
      exact this.trans (List.prefix_append _ _)

/-- Claim C8 (amended): when the trimmed sentences consist of nonempty
words with no internal whitespace (no double spaces, tabs or newlines),
every chunk after the first begins with the last `⌊overlap/5⌋`
space-separated words of the previous chunk, joined by spaces — where, as
in JS `slice(-m)`, all the words are kept when `⌊overlap/5⌋ = 0` or the
previous chunk has fewer words.  On text with double spaces the claimed
prefix property fails (see the counterexample): the flushed chunk is
trimmed while the overlap is taken from the untrimmed accumulator. -/
theorem chunkText_overlap_chain (text : JSString) (cs ov : ℕ)
    (hclean : ∀ s ∈ sentencesOf text, CleanToks (jsTrim s)) :
    List.Chain' (fun prev next =>
      joinSpace (lastWords (ov / 5) (jsSplit ' ' prev)) <+: next)
      (chunkText text cs ov) := by
  have hfold := @foldl_preserve _ _
    (OverlapInv (ov / 5))
    (fun t => CleanToks (jsTrim t) ∧ jsTrim t ≠ [])
    (chunkStep cs ov) (sentencesOf text)
    (fun t htmem => ⟨hclean t htmem, by
      unfold sentencesOf at htmem
      have := (List.mem_filter.mp htmem).2
      simp only [decide_eq_true_eq] at this
      exact List.length_pos.mp this⟩)
    (fun st t hst hq => chunkStep_overlap hst hq.1 hq.2)
    ([], [])
    ⟨fun _ => rfl, fun hh => absurd rfl hh, fun hh => absurd rfl hh,
      List.chain'_nil⟩
  unfold chunkText
  dsimp only
  split_ifs with h
  · have hne : (List.foldl (chunkStep cs ov) ([], [])
        (sentencesOf text)).2 ≠ [] := by
      intro hh
      rw [hh] at h
      simp [jsTrim] at h
    exact overlapInv_chain_append hfold hne
  · exact hfold.2.2.2

/-- Witness for `chunkText_overlap_chain`. -/
theorem chunkText_overlap_chain_witness :
    List.Chain' (fun prev next =>
      joinSpace (lastWords (10 / 5) (jsSplit ' ' prev)) <+: next)
      (chunkText ("One sentence here. And two".data) 12 10) :=
  chunkText_overlap_chain (("One sentence here. And two".data)) 12 10
    (by decide)

/-- Counterexample for claim C8: on text with a double space, the chunk
produced after a split does not begin with the last `⌊overlap/5⌋` words of
the previous chunk: the overlap ` b` keeps an empty word, and the leading
space it contributes is removed when the next chunk is trimmed. -/
theorem chunkText_overlap_prefix_false :
    chunkText ("a  b. cdefghi".data) 10 10 =
      [("a  b".data), ("b cdefghi".data)] ∧
    ((joinSpace (lastWords (10 / 5) (jsSplit ' ' ("a  b".data)))).isPrefixOf
      ("b cdefghi".data)) = false :=
  ⟨by decide, by decide⟩
